import Mathlib

/-!
# Verification of the `kwik` ordered binary tree (`kwik::binary_tree` / `kwik::avl_tree`)

This development embeds the self-balancing binary search tree of the `kwik`
repository (`include/kwik/binary_tree.hpp` and the AVL specialization
`avl_tree.hpp`) into Lean and settles the specification claims about it.

Two embeddings are used:

* a *functional* model (`TreeF`) of the left/right/data/height structure.
  `binary_tree<T>::insert` never reads any `parent` field (it only writes
  them), so the tree shape, the cached heights and the stored data produced
  by any insertion-only workload are computed exactly by the structural
  recursion on `left`/`right`; this model is used for the general theorems
  about insertion.
* an *arena* model (`TState`), a heap of nodes addressed by allocation
  ids, with every field of the C++ `node` struct, including the `parent`
  back-reference.  All pointer writes of the source, in source order, are
  transcribed; this model is used for `remove`, `find`, and for the claims
  about parent pointers and node identity.

Machine integers: node heights are `uint64_t` and fit in `Nat` (all values
involved are tiny; no overflow is reachable), the comparator returns `int`
modeled as `Int`, and `difference` is `int64_t` modeled as `Int`.
-/

namespace Kwik

/-! ## Functional model of the node structure

`TreeF` mirrors `binary_tree<T>::node` without the non-owning `parent`
back-reference: constructor fields are `data`, `left`, `right`, `height`
(the cached height, `1` at construction).  Element type `T` is
instantiated at `Int`. -/

inductive TreeF where
  | nil : TreeF
  | node (data : Int) (left : TreeF) (right : TreeF) (height : Nat) : TreeF
deriving DecidableEq, Repr

/-- `binary_tree<T>::height(node *)`: the cached height of a possibly
absent node, `0` for `nullptr`. -/
def hgt : TreeF → Nat
  | .nil => 0
  | .node _ _ _ h => h

@[simp] lemma hgt_nil : hgt .nil = 0 := rfl

@[simp] lemma hgt_node (d : Int) (l r : TreeF) (h : Nat) :
    hgt (.node d l r h) = h := rfl

/-- The `left` child of a possibly absent node (`nullptr` reads as absent). -/
def leftOf : TreeF → TreeF
  | .nil => .nil
  | .node _ l _ _ => l

/-- The `right` child of a possibly absent node. -/
def rightOf : TreeF → TreeF
  | .nil => .nil
  | .node _ _ r _ => r

@[simp] lemma leftOf_node (d : Int) (l r : TreeF) (h : Nat) :
    leftOf (.node d l r h) = l := rfl

@[simp] lemma rightOf_node (d : Int) (l r : TreeF) (h : Nat) :
    rightOf (.node d l r h) = r := rfl

/-- `avl_tree<T>::difference`: cached height of the left child minus cached
height of the right child, `0` for an absent node. -/
def difference : TreeF → Int
  | .nil => 0
  | .node _ l r _ => (hgt l : Int) - (hgt r : Int)

@[simp] lemma difference_nil : difference .nil = 0 := rfl

@[simp] lemma difference_node (d : Int) (l r : TreeF) (h : Nat) :
    difference (.node d l r h) = (hgt l : Int) - (hgt r : Int) := rfl

/-- `avl_tree<T>::rr_rotate`: the right child becomes the subtree root;
the old root receives the pivot's former left child as its right child;
the old root's height is recomputed first, then the pivot's.  The source
dereferences `root->right`, which `balance` only does when it is present;
on the unreachable absent case the model returns the tree unchanged. -/
def rr_rotate : TreeF → TreeF
  | .node d l (.node pd pl pr _) _ =>
      let root := TreeF.node d l pl (max (hgt l) (hgt pl) + 1)
      TreeF.node pd root pr (max (hgt root) (hgt pr) + 1)
  | t => t

/-- `avl_tree<T>::ll_rotate`, mirror image of `rr_rotate`. -/
def ll_rotate : TreeF → TreeF
  | .node d (.node pd pl pr _) r _ =>
      let root := TreeF.node d pr r (max (hgt pr) (hgt r) + 1)
      TreeF.node pd pl root (max (hgt pl) (hgt root) + 1)
  | t => t

/-- `avl_tree<T>::lr_rotate`: `root->left = rr_rotate(root->left)`, then
`ll_rotate(root)`. -/
def lr_rotate : TreeF → TreeF
  | .node d l r h => ll_rotate (.node d (rr_rotate l) r h)
  | .nil => .nil

/-- `avl_tree<T>::rl_rotate`: `root->right = ll_rotate(root->right)`, then
`rr_rotate(root)`. -/
def rl_rotate : TreeF → TreeF
  | .node d l r h => rr_rotate (.node d l (ll_rotate r) h)
  | .nil => .nil

/-- `avl_tree<T>::balance`: on a balance factor above `1`, `ll_rotate` when
the left child's factor is positive, else `lr_rotate`; on a factor below
`-1`, `rl_rotate` when the right child's factor is positive, else
`rr_rotate`; otherwise the node is returned unchanged. -/
def balanceAvl (t : TreeF) : TreeF :=
  let factor := difference t
  if factor > 1 then
    if difference (leftOf t) > 0 then ll_rotate t else lr_rotate t
  else if factor < -1 then
    if difference (rightOf t) > 0 then rl_rotate t else rr_rotate t
  else t

/-- The base class's virtual `binary_tree<T>::balance`: the identity. -/
def balanceBase (t : TreeF) : TreeF := t

/-- `binary_tree<T>::insert(node *root, node *node)` (structural part).
Returns the new subtree root together with the flag recording whether the
`cmp == 0` branch ran (in the source that branch performs `tree_size--`
and frees the new node).  On `cmp > 0` the descent goes left, on
`cmp < 0` right, on `cmp == 0` the recursion stops; in every case the
root's cached height is recomputed from its (possibly new) children and
the virtual `balance` hook — the parameter `bal` — is applied to the
root.  `insert` never reads a `parent` field, so this captures the full
shape/height evolution. -/
def insertT (bal : TreeF → TreeF) (cmp : Int → Int → Int) : TreeF → Int → TreeF × Bool
  | .nil, x => (.node x .nil .nil 1, false)
  | .node d l r _, x =>
    let c := cmp d x
    let pl := if c > 0 then insertT bal cmp l x else (l, false)
    let pr := if c < 0 then insertT bal cmp r x else (r, false)
    (bal (.node d pl.1 pr.1 (max (hgt pl.1) (hgt pr.1) + 1)),
      (c == 0) || pl.2 || pr.2)

/-- The default comparator of `binary_tree<T>`:
`a < b ? -1 : a > b ? 1 : 0`. -/
def defaultCmp (a b : Int) : Int :=
  if a < b then -1 else if a > b then 1 else 0

/-- Public `insert(T)` followed by `insert(node *)` at the level of the
pair (root, `tree_size`): `tree_size` is incremented, then the recursive
insert runs (decrementing again when it met an equal-comparing node), and
the returned node becomes the stored root. -/
def insertS (bal : TreeF → TreeF) (cmp : Int → Int → Int)
    (s : TreeF × Nat) (x : Int) : TreeF × Nat :=
  let p := insertT bal cmp s.1 x
  (p.1, s.2 + 1 - (if p.2 then 1 else 0))

/-- Tree built by inserting the values of `xs` in order into an empty
`avl_tree<int>`. -/
def buildAvlF (cmp : Int → Int → Int) (xs : List Int) : TreeF :=
  xs.foldl (fun t x => (insertT balanceAvl cmp t x).1) .nil

/-! ### Structural predicates (specification side) -/

/-- In-order list of stored values. -/
def valsF : TreeF → List Int
  | .nil => []
  | .node d l r _ => valsF l ++ d :: valsF r

/-- Every node's cached height equals `1 + max` of its children's cached
heights (an absent child having height `0`). -/
def heightOkB : TreeF → Bool
  | .nil => true
  | .node _ l r h => (h == max (hgt l) (hgt r) + 1) && heightOkB l && heightOkB r

/-- Every node's balance factor (cached height of left minus cached height
of right, absent child counting as `0`) lies in `[-1, 1]`. -/
def avlBalB : TreeF → Bool
  | .nil => true
  | .node _ l r _ =>
      ((hgt l : Int) - (hgt r : Int)).natAbs ≤ 1 && avlBalB l && avlBalB r

/-- Binary-search-tree ordering under the default integer comparator:
all values in the left subtree are smaller, all values in the right
subtree larger. -/
def bstB : TreeF → Bool
  | .nil => true
  | .node d l r _ =>
      (valsF l).all (fun y => y < d) && (valsF r).all (fun y => d < y)
        && bstB l && bstB r

example : buildAvlF defaultCmp [10, 20, 30] =
    .node 20 (.node 10 .nil .nil 1) (.node 30 .nil .nil 1) 2 := by decide

example : avlBalB (buildAvlF defaultCmp [1, 2, 3, 4, 5, 6, 7]) = true := by decide

example : valsF (buildAvlF defaultCmp [1, 2, 3, 4, 5, 6, 7]) =
    [1, 2, 3, 4, 5, 6, 7] := by decide

/-! ## Arena model

Nodes are addressed by allocation ids (`NodeId`); the heap is an
association list from ids to node records carrying every field of the C++
`struct node`.  `none` stands for `nullptr`.  Freed nodes are erased from
the heap; a write through a dangling or null pointer — undefined behavior
in the source, structurally inert in the one place it happens (the write
`node->parent = root` right after `delete node` on the `cmp == 0` path
of `insert`) — is modeled as a no-op, and a read through one falls back
to an "operation abandons" default noted at each definition.

Unbounded C++ recursions (descents and parent climbs) take explicit fuel;
every operation invokes them with fuel exceeding the heap size, which is
enough whenever the links the recursion follows are acyclic.  (When the
structure has been corrupted into a cycle the C++ original simply never
terminates; the theorems about such states only rely on the link fields,
which are set before any climb.) -/

/-- Node allocation id (stands for the `node *` value). -/
abbrev NodeId := Nat

/-- One `binary_tree<T>::node`: stored value, the three links and the
cached height, in source order.  `height` is `1` at construction. -/
structure ANode where
  data : Int
  parent : Option NodeId
  left : Option NodeId
  right : Option NodeId
  height : Nat
deriving DecidableEq, Repr

/-- The node arena. -/
abbrev Heap := List (NodeId × ANode)

/-- Dereference a node id. -/
def hget : Heap → NodeId → Option ANode
  | [], _ => none
  | (j, n) :: t, i => if j = i then some n else hget t i

/-- Write through a node id (no-op when the id is unallocated — a write
through a dangling pointer changes no live node). -/
def hupd (h : Heap) (i : NodeId) (f : ANode → ANode) : Heap :=
  h.map (fun p => if p.1 = i then (p.1, f p.2) else p)

/-- `delete node`: the allocation disappears from the arena. -/
def herase (h : Heap) (i : NodeId) : Heap :=
  h.filter (fun p => p.1 ≠ i)

/-- `binary_tree<T>::height(node *)` on the arena: cached height, `0` for
`nullptr` (and for a dangling id, which the source could not read). -/
def heightA (h : Heap) : Option NodeId → Nat
  | none => 0
  | some i => match hget h i with
    | none => 0
    | some nd => nd.height

/-- `root->height = std::max(height(root->left), height(root->right)) + 1`
for a single node. -/
def refreshOne (h : Heap) (i : NodeId) : Heap :=
  match hget h i with
  | none => h
  | some nd => hupd h i (fun n => { n with height := max (heightA h nd.left) (heightA h nd.right) + 1 })

/-- `avl_tree<T>::difference` on the arena. -/
def differenceA (h : Heap) : Option NodeId → Int
  | none => 0
  | some i => match hget h i with
    | none => 0
    | some nd => (heightA h nd.left : Int) - (heightA h nd.right : Int)

/-- `avl_tree<T>::rr_rotate` on the arena: relinks `left`/`right` of the
two nodes involved and recomputes their cached heights (old root first);
**no `parent` field is touched**, exactly as in the source.  Returns the
new subtree root.  The null/dangling dereferences are unreachable from
`balance`; on them the model leaves the heap unchanged. -/
def rr_rotateA (h : Heap) (rootId : NodeId) : Heap × NodeId :=
  match hget h rootId with
  | none => (h, rootId)
  | some rn =>
    match rn.right with
    | none => (h, rootId)
    | some pid =>
      match hget h pid with
      | none => (h, rootId)
      | some pn =>
        let h1 := hupd h rootId (fun n => { n with right := pn.left })
        let h2 := hupd h1 pid (fun n => { n with left := some rootId })
        let h3 := refreshOne h2 rootId
        (refreshOne h3 pid, pid)

/-- `avl_tree<T>::ll_rotate` on the arena, mirror image. -/
def ll_rotateA (h : Heap) (rootId : NodeId) : Heap × NodeId :=
  match hget h rootId with
  | none => (h, rootId)
  | some rn =>
    match rn.left with
    | none => (h, rootId)
    | some pid =>
      match hget h pid with
      | none => (h, rootId)
      | some pn =>
        let h1 := hupd h rootId (fun n => { n with left := pn.right })
        let h2 := hupd h1 pid (fun n => { n with right := some rootId })
        let h3 := refreshOne h2 rootId
        (refreshOne h3 pid, pid)

/-- `avl_tree<T>::lr_rotate` on the arena. -/
def lr_rotateA (h : Heap) (rootId : NodeId) : Heap × NodeId :=
  match hget h rootId with
  | none => (h, rootId)
  | some rn =>
    match rn.left with
    | none => (h, rootId)
    | some lid =>
      let p := rr_rotateA h lid
      let h1 := hupd p.1 rootId (fun n => { n with left := some p.2 })
      ll_rotateA h1 rootId

/-- `avl_tree<T>::rl_rotate` on the arena. -/
def rl_rotateA (h : Heap) (rootId : NodeId) : Heap × NodeId :=
  match hget h rootId with
  | none => (h, rootId)
  | some rn =>
    match rn.right with
    | none => (h, rootId)
    | some rid =>
      let p := ll_rotateA h rid
      let h1 := hupd p.1 rootId (fun n => { n with right := some p.2 })
      rr_rotateA h1 rootId

/-- `avl_tree<T>::balance` on the arena. -/
def balanceAvlA (h : Heap) (rootId : NodeId) : Heap × NodeId :=
  let factor := differenceA h (some rootId)
  match hget h rootId with
  | none => (h, rootId)
  | some rn =>
    if factor > 1 then
      if differenceA h rn.left > 0 then ll_rotateA h rootId else lr_rotateA h rootId
    else if factor < -1 then
      if differenceA h rn.right > 0 then rl_rotateA h rootId else rr_rotateA h rootId
    else (h, rootId)

/-- `binary_tree<T>::balance` (the base class's virtual): identity. -/
def balanceBaseA (h : Heap) (rootId : NodeId) : Heap × NodeId := (h, rootId)

/-- The whole-tree state: arena, stored root pointer, `tree_size`, and the
next fresh allocation id. -/
structure TState where
  heap : Heap
  root : Option NodeId
  size : Nat
  nextId : Nat
deriving DecidableEq, Repr

/-- Fuel every operation hands to its recursions: one more than the
number of live allocations, enough for any acyclic descent or climb. -/
def fuelOf (s : TState) : Nat := s.heap.length + 1

/-- `binary_tree<T>::insert(node *root, node *node)` on the arena,
transcribing each statement in source order:
read `root->data`/`node->data` and compare; on `cmp == 0` free the new
node (the size decrement is the returned flag); `node->parent = root`
(on the `cmp == 0` path this writes through the just-freed pointer —
 undefined behavior that changes no live node, a no-op here);
on `cmp > 0`, `node->parent = root->left` when that child exists, recurse
left and store the returned subtree root into `root->left` (symmetrically
on `cmp < 0`); recompute `root->height`; finally apply the virtual
`balance` — parameter `bal` — and return its result.
Returns (heap, new subtree root, flag of the `cmp == 0` branch). -/
def insertA (bal : Heap → NodeId → Heap × NodeId) (cmp : Int → Int → Int) :
    Nat → Heap → Option NodeId → NodeId → Heap × Option NodeId × Bool
  | 0, h, r, _ => (h, r, false)
  | _ + 1, h, none, nid => (h, some nid, false)
  | fuel + 1, h, some rid, nid =>
    match hget h rid with
    | none => (h, some rid, false)
    | some rn =>
      let ndata := match hget h nid with
        | some n => n.data
        | none => 0
      let c := cmp rn.data ndata
      let h1 := if c = 0 then herase h nid else h
      let h2 := hupd h1 nid (fun n => { n with parent := some rid })
      if c > 0 then
        let h3 := match rn.left with
          | some lid => hupd h2 nid (fun n => { n with parent := some lid })
          | none => h2
        let p := insertA bal cmp fuel h3 rn.left nid
        let h4 := hupd p.1 rid (fun n => { n with left := p.2.1 })
        let h5 := refreshOne h4 rid
        let q := bal h5 rid
        (q.1, some q.2, p.2.2)
      else if c < 0 then
        let h3 := match rn.right with
          | some lid => hupd h2 nid (fun n => { n with parent := some lid })
          | none => h2
        let p := insertA bal cmp fuel h3 rn.right nid
        let h4 := hupd p.1 rid (fun n => { n with right := p.2.1 })
        let h5 := refreshOne h4 rid
        let q := bal h5 rid
        (q.1, some q.2, p.2.2)
      else
        let h5 := refreshOne h2 rid
        let q := bal h5 rid
        (q.1, some q.2, true)

/-- Public `insert(T data)`: allocate a fresh node (`height = 1`, all
links null), `tree_size++`, run the recursive insert from the stored
root, undo the increment when the recursion met an equal-comparing node,
and store the returned root. -/
def insertValA (bal : Heap → NodeId → Heap × NodeId) (cmp : Int → Int → Int)
    (s : TState) (v : Int) : TState :=
  let nid : NodeId := s.nextId
  let h0 := (nid, ANode.mk v none none none 1) :: s.heap
  let p := insertA bal cmp (h0.length + 1) h0 s.root nid
  { heap := p.1
    root := p.2.1
    size := s.size + 1 - (if p.2.2 then 1 else 0)
    nextId := s.nextId + 1 }

/-- `binary_tree<T>::find(node *root, T data)`: comparator-driven descent;
returns the matching node or null. -/
def findA (cmp : Int → Int → Int) (h : Heap) : Nat → Option NodeId → Int → Option NodeId
  | 0, _, _ => none
  | _ + 1, none, _ => none
  | fuel + 1, some rid, v =>
    match hget h rid with
    | none => none
    | some rn =>
      let c := cmp rn.data v
      if c = 0 then some rid
      else if c > 0 then findA cmp h fuel rn.left v
      else findA cmp h fuel rn.right v

/-- `binary_tree<T>::find_min`: leftmost node of a subtree. -/
def findMinA (h : Heap) : Nat → Option NodeId → Option NodeId
  | 0, _ => none
  | _ + 1, none => none
  | fuel + 1, some i =>
    match hget h i with
    | none => none
    | some nd =>
      match nd.left with
      | none => some i
      | some l => findMinA h fuel (some l)

/-- `binary_tree<T>::find_max`: rightmost node of a subtree. -/
def findMaxA (h : Heap) : Nat → Option NodeId → Option NodeId
  | 0, _ => none
  | _ + 1, none => none
  | fuel + 1, some i =>
    match hget h i with
    | none => none
    | some nd =>
      match nd.right with
      | none => some i
      | some r => findMaxA h fuel (some r)

/-- `binary_tree<T>::parent_relink(root, node)`: if `root` and
`root->parent` exist, repoint the parent's child pointer(s) that equal
`root` at `node`.  The source tests `left` first, then re-reads and tests
`right`. -/
def parentRelinkA (h : Heap) (r m : Option NodeId) : Heap :=
  match r with
  | none => h
  | some rid =>
    match hget h rid with
    | none => h
    | some rn =>
      match rn.parent with
      | none => h
      | some pid =>
        let h1 := match hget h pid with
          | some pn => if pn.left = some rid then hupd h pid (fun n => { n with left := m }) else h
          | none => h
        match hget h1 pid with
        | some pn => if pn.right = some rid then hupd h1 pid (fun n => { n with right := m }) else h1
        | none => h1

/-- `binary_tree<T>::parent_refresh_height`: recompute the cached height
of a node and recurse on its `parent` back-reference up to the root. -/
def parentRefreshA (h : Heap) : Nat → Option NodeId → Heap
  | 0, _ => h
  | _ + 1, none => h
  | fuel + 1, some i =>
    match hget h i with
    | none => h
    | some _ =>
      let h1 := refreshOne h i
      match hget h1 i with
      | some nd1 =>
        match nd1.parent with
        | some p => parentRefreshA h1 fuel (some p)
        | none => h1
      | none => h1

/-- `binary_tree<T>::remove(node *node)`, transcribing each statement in
source order: null check; `tree_size--`; select `promote` (taller-side
extreme for two children, the sole child for one, null for none — the
height comparison reads the two children's `height` fields directly);
`promote->parent = node->parent`; `promote->left = node->left` when
`node->left != promote`; `promote->right = node->right` when
`node->right != promote` (the source would dereference a null `promote`
here, but a null `promote` forces both guards false); `parent_unlink
(promote)` — which follows `promote`'s **already overwritten** parent
field; `parent_relink(node, promote)`; refresh heights upward from
`promote`, or from `node->parent` when there is none; update the stored
root; `delete node`. -/
def removeNodeA (s : TState) (onid : Option NodeId) : TState :=
  match onid with
  | none => s
  | some nid =>
    match hget s.heap nid with
    | none => s
    | some nd =>
      let size := s.size - 1
      let fuel := fuelOf s
      let promote : Option NodeId :=
        if nd.left ≠ none ∧ nd.right ≠ none then
          if heightA s.heap nd.left > heightA s.heap nd.right
          then findMaxA s.heap fuel nd.left
          else findMinA s.heap fuel nd.right
        else if nd.left ≠ none ∨ nd.right ≠ none then
          if nd.left = none then nd.right else nd.left
        else none
      let h1 := match promote with
        | some p => hupd s.heap p (fun n => { n with parent := nd.parent })
        | none => s.heap
      let nd1 := (hget h1 nid).getD nd
      let h2 := if nd1.left ≠ promote then
          match promote with
          | some p => hupd h1 p (fun n => { n with left := nd1.left })
          | none => h1
        else h1
      let nd2 := (hget h2 nid).getD nd
      let h3 := if nd2.right ≠ promote then
          match promote with
          | some p => hupd h2 p (fun n => { n with right := nd2.right })
          | none => h2
        else h2
      let h4 := parentRelinkA h3 promote none
      let h5 := parentRelinkA h4 (some nid) promote
      let nd3 := (hget h5 nid).getD nd
      let h6 := parentRefreshA h5 fuel (if promote ≠ none then promote else nd3.parent)
      let root := if s.root = some nid then promote else s.root
      { heap := herase h6 nid, root := root, size := size, nextId := s.nextId }

/-- Public `remove(T data)`: look the value up, then remove the node
found (no-op when the lookup returns null). -/
def removeValA (cmp : Int → Int → Int) (s : TState) (v : Int) : TState :=
  removeNodeA s (findA cmp s.heap (fuelOf s) s.root v)

/-- Public `height()`: cached height of the stored root, `0` when the
tree is empty. -/
def heightS (s : TState) : Nat := heightA s.heap s.root

/-- The empty tree. -/
def emptyS : TState := { heap := [], root := none, size := 0, nextId := 0 }

/-- Build a tree state by inserting values in order (base class,
identity balance hook). -/
def buildBase (xs : List Int) : TState :=
  xs.foldl (insertValA balanceBaseA defaultCmp) emptyS

/-- Build a tree state by inserting values in order (AVL balance hook). -/
def buildAvl (xs : List Int) : TState :=
  xs.foldl (insertValA balanceAvlA defaultCmp) emptyS

/-- Specification observer: fuel-bounded in-order traversal of the arena
from a node.  `some` of the value list when the reachable structure is a
finite tree of live nodes; `none` when the traversal runs into a dangling
pointer or fails to bottom out within the fuel (as it cannot, at any
fuel, once the child links contain a cycle). -/
def inorderA (h : Heap) : Nat → Option NodeId → Option (List Int)
  | _, none => some []
  | 0, some _ => none
  | fuel + 1, some i =>
    match hget h i with
    | none => none
    | some nd =>
      match inorderA h fuel nd.left with
      | none => none
      | some L =>
        match inorderA h fuel nd.right with
        | none => none
        | some R => some (L ++ nd.data :: R)

/-- Every live node's cached height equals `1 + max` of its children's
cached heights (absent child counting `0`) — the height-cache invariant
on the arena. -/
def heightCachesOkB (h : Heap) : Bool :=
  h.all (fun p => p.2.height == max (heightA h p.2.left) (heightA h p.2.right) + 1)

/-! ### Concrete executions used by the counterexamples

Ids are allocation order, starting at `0`. -/

/-- Base tree (identity balance hook): insert `2, 1, 5, 4, 6`, then
`remove(2)` — the removed root has two children of heights 1 and 2, so
the in-order successor `4` (id 3), a node *deeper* than `node->right`,
is promoted. -/
def c1s : TState := removeValA defaultCmp (buildBase [2, 1, 5, 4, 6]) 2

/-- AVL tree after inserting `1 .. 7` in increasing order. -/
def c3pre : TState := buildAvl [1, 2, 3, 4, 5, 6, 7]

/-- AVL tree: insert `1 .. 7` in increasing order, then `remove(4)`. -/
def c3s : TState := removeValA defaultCmp c3pre 4

/-- AVL tree after inserting `10, 20, 30` (the third insert fires one
RR rotation at the root). -/
def c5s : TState := buildAvl [10, 20, 30]

/-- Base tree after inserting `50, 30, 40, 35`: node `30` has exactly one
child (`40` on the right), and that child has its own child (`35`) on the
left — the side on which `30` has no child. -/
def c6pre : TState := buildBase [50, 30, 40, 35]

/-- The previous tree after `remove(30)`. -/
def c6s : TState := removeValA defaultCmp c6pre 30

/-! ### Helper lemmas for traversal of a heap whose links contain a cycle -/

/-- Unfolding of `inorderA` at positive fuel on a live node. -/
lemma inorderA_succ (h : Heap) (f : Nat) (i : NodeId) (nd : ANode)
    (hh : hget h i = some nd) :
    inorderA h (f + 1) (some i) =
      match inorderA h f nd.left with
      | none => none
      | some L =>
        match inorderA h f nd.right with
        | none => none
        | some R => some (L ++ nd.data :: R) := by
  rw [inorderA, hh]

/-- A node whose right subtree traversal fails has no traversal. -/
lemma inorderA_right_none (h : Heap) (f : Nat) (i : NodeId) (nd : ANode)
    (hh : hget h i = some nd) (hr : inorderA h f nd.right = none) :
    inorderA h (f + 1) (some i) = none := by
  rw [inorderA_succ h f i nd hh]
  cases hl : inorderA h f nd.left <;> simp [hr]

/-- A node whose left subtree traversal fails has no traversal. -/
lemma inorderA_left_none (h : Heap) (f : Nat) (i : NodeId) (nd : ANode)
    (hh : hget h i = some nd) (hl : inorderA h f nd.left = none) :
    inorderA h (f + 1) (some i) = none := by
  rw [inorderA_succ h f i nd hh, hl]

/-- In the `c1s` heap, ids 3 and 2 point at each other (`4`'s right child
is `5`, yet `5`'s left pointer still aims at `4`), so neither admits an
in-order traversal at any fuel. -/
lemma c1s_cycle_traversal (f : Nat) :
    inorderA c1s.heap f (some 3) = none ∧ inorderA c1s.heap f (some 2) = none := by
  induction f with
  | zero => exact ⟨rfl, rfl⟩
  | succ f ih =>
    refine ⟨?_, ?_⟩
    · exact inorderA_right_none c1s.heap f 3 (ANode.mk 4 none (some 1) (some 2) 3)
        (by decide) ih.2
    · exact inorderA_left_none c1s.heap f 2 (ANode.mk 5 (some 0) (some 3) (some 4) 2)
        (by decide) ih.1

/-- In the `c3s` heap, ids 3 (value `5`) and 5 (value `6`) point at each
other, so neither admits an in-order traversal at any fuel. -/
lemma c3s_cycle_traversal (f : Nat) :
    inorderA c3s.heap f (some 4) = none ∧ inorderA c3s.heap f (some 5) = none := by
  induction f with
  | zero => exact ⟨rfl, rfl⟩
  | succ f ih =>
    refine ⟨?_, ?_⟩
    · exact inorderA_right_none c3s.heap f 4 (ANode.mk 5 (some 2) (some 1) (some 5) 3)
        (by decide) ih.2
    · exact inorderA_left_none c3s.heap f 5 (ANode.mk 6 (some 4) (some 4) (some 6) 2)
        (by decide) ih.1

/-! ## Claim theorems (concrete executions) -/

/-- C1.  The ordering invariant does **not** survive every insert/remove
sequence: after inserting `2, 1, 5, 4, 6` into an empty tree (natural
integer order, a strict total order) and removing `2`, the promoted
in-order successor `4` (id 3) receives the removed root's children while
`parent_unlink` — running on `promote`'s already overwritten parent
field — fails to detach it from its old parent `5` (id 2).  Node `5`'s
left pointer still aims at `4`, `4`'s right pointer aims at `5`, and the
in-order traversal of the resulting structure bottoms out at no fuel,
so it yields no value sequence at all, sorted or otherwise. -/
theorem c1_remove_corrupts_ordering :
    c1s.root = some 3 ∧
    (hget c1s.heap 3).map ANode.data = some 4 ∧
    (hget c1s.heap 3).map ANode.right = some (some 2) ∧
    (hget c1s.heap 2).map ANode.data = some 5 ∧
    (hget c1s.heap 2).map ANode.left = some (some 3) ∧
    ∀ f : Nat, inorderA c1s.heap f c1s.root = none := by
  refine ⟨by decide, by decide, by decide, by decide, by decide, ?_⟩
  intro f
  have hr : c1s.root = some 3 := by decide
  rw [hr]
  exact (c1s_cycle_traversal f).1

/-- C3.  Insert `1 .. 7` in increasing order into an empty AVL tree, then
remove `4`: the promoted node is indeed the in-order successor `5`
(tie on the two subtree heights favors `find_min(node->right)`) and
`size()` does drop to `6` — but the ordering invariant does **not** hold
afterward.  `parent_unlink` runs on `5`'s already overwritten parent
field, so `6`'s left pointer still aims at the promoted `5` while `5`'s
right pointer aims at `6`; the in-order traversal of the result admits no
value sequence at any fuel (in particular it never yields
`1, 2, 3, 5, 6, 7`). -/
theorem c3_remove_four_scenario :
    inorderA c3pre.heap (fuelOf c3pre) c3pre.root = some [1, 2, 3, 4, 5, 6, 7] ∧
    c3pre.size = 7 ∧
    c3s.root = some 4 ∧
    (hget c3s.heap 4).map ANode.data = some 5 ∧
    c3s.size = 6 ∧
    (hget c3s.heap 4).map ANode.right = some (some 5) ∧
    (hget c3s.heap 5).map ANode.data = some 6 ∧
    (hget c3s.heap 5).map ANode.left = some (some 4) ∧
    ∀ f : Nat, inorderA c3s.heap f c3s.root = none := by
  refine ⟨by decide, by decide, by decide, by decide, by decide, by decide,
    by decide, by decide, ?_⟩
  intro f
  have hr : c3s.root = some 4 := by decide
  rw [hr]
  exact (c3s_cycle_traversal f).1

/-- C4.  The height-cache invariant does **not** hold after every
completed public operation: in the state reached by inserting
`2, 1, 5, 4, 6` and removing `2`, the live node `5` (id 2) still caches
height `2` although its children (ids 3 and 4) cache `3` and `1`, so
`1 + max` is `4` — `parent_refresh_height` climbed from the promoted
node's *new* parent chain and never revisited `5`. -/
theorem c4_remove_leaves_stale_height_cache :
    (hget c1s.heap 2).map ANode.height = some 2 ∧
    (hget c1s.heap 2).map ANode.left = some (some 3) ∧
    (hget c1s.heap 2).map ANode.right = some (some 4) ∧
    heightA c1s.heap (some 3) = 3 ∧
    heightA c1s.heap (some 4) = 1 ∧
    heightCachesOkB c1s.heap = false := by
  decide

/-- C5.  Parent back-references are **not** correct after insertions that
fire a rotation: after inserting `10, 20, 30` into an empty AVL tree the
RR rotation makes `20` (id 1) the root with `10` (id 0) as its left
child, but neither `rr_rotate` nor the insertion unwinding loop fixes
any `parent` field — the new root `20` still records `10` as its parent,
and `10`'s parent is still absent. -/
theorem c5_rotation_leaves_stale_parents :
    c5s.root = some 1 ∧
    (hget c5s.heap 1).map ANode.data = some 20 ∧
    (hget c5s.heap 1).map ANode.left = some (some 0) ∧
    (hget c5s.heap 0).map ANode.data = some 10 ∧
    (hget c5s.heap 1).map ANode.parent = some (some 0) ∧
    (hget c5s.heap 0).map ANode.parent = some none := by
  decide

/-- C6.  Removing a node with exactly one child does **not** always
preserve the remaining values: in the base tree built by inserting
`50, 30, 40, 35`, node `30` has exactly one child `40`, which itself has
the child `35` on the left — the side on which `30` had no child.
`remove(30)` promotes `40` but overwrites `40`'s left pointer with
`node->left`, i.e. absent, discarding `35`: the traversal of the result
is `[40, 50]`, not `[35, 40, 50]`, while `size()` still claims 3. -/
theorem c6_one_child_remove_discards_subtree :
    inorderA c6pre.heap (fuelOf c6pre) c6pre.root = some [30, 35, 40, 50] ∧
    (hget c6pre.heap 1).map ANode.data = some 30 ∧
    (hget c6pre.heap 1).map ANode.left = some none ∧
    (hget c6pre.heap 1).map ANode.right = some (some 2) ∧
    (hget c6pre.heap 2).map ANode.data = some 40 ∧
    (hget c6pre.heap 2).map ANode.left = some (some 3) ∧
    (hget c6pre.heap 3).map ANode.data = some 35 ∧
    inorderA c6s.heap (fuelOf c6s) c6s.root = some [40, 50] ∧
    c6s.size = 3 := by
  decide

/-! ## C8: dispatch of the right-heavy rebalancing cases -/

/-- A right-heavy node whose right child is perfectly balanced: root `10`
with no left child and right child `20` carrying the two leaves `15` and
`25`.  Balance factor of the root is `-2`; balance factor of the right
child is `0`. -/
def c8t : TreeF :=
  .node 10 .nil (.node 20 (.node 15 .nil .nil 1) (.node 25 .nil .nil 1) 2) 3

/-- C8 counterexample.  The claim says the single RR rotation fires
*exactly when the right child is right-heavy (negative balance factor)*,
and that otherwise the double RL rotation runs.  On `c8t` the right
child's factor is `0` — not negative — so the claim demands the RL
rotation; the code instead tests `difference(root->right) > 0` and
applies the RR rotation. -/
theorem c8_rl_claim_fails_at_zero :
    difference c8t = -2 ∧
    difference (rightOf c8t) = 0 ∧
    ¬ difference (rightOf c8t) < 0 ∧
    balanceAvl c8t = rr_rotate c8t ∧
    balanceAvl c8t ≠ rl_rotate c8t := by
  decide

/-- C8 amended.  For every node handed to the AVL rebalance hook with
balance factor below `-1`, the hook applies the double RL rotation
exactly when the right child is *left-heavy* (its balance factor is
positive) and the single RR rotation otherwise — i.e. also when the
right child's factor is `0`, not only when it is negative. -/
theorem c8_right_heavy_dispatch (t : TreeF) (h : difference t < -1) :
    balanceAvl t = if difference (rightOf t) > 0 then rl_rotate t else rr_rotate t := by
  have h1 : ¬ difference t > 1 := by omega
  simp only [balanceAvl, if_neg h1, if_pos h]

/-- Witness for `c8_right_heavy_dispatch` at `c8t`. -/
theorem c8_right_heavy_dispatch_witness :
    difference c8t < -1 ∧
    balanceAvl c8t = if difference (rightOf c8t) > 0 then rl_rotate c8t else rr_rotate c8t :=
  ⟨by decide, c8_right_heavy_dispatch c8t (by decide)⟩

/-! ## C9: removing / finding an absent value -/

/-- A successful `hget` means membership in the arena list. -/
lemma hget_mem : ∀ {h : Heap} {i : NodeId} {n : ANode},
    hget h i = some n → (i, n) ∈ h := by
  intro h
  induction h with
  | nil => intro i n hh; simp [hget] at hh
  | cons p t ih =>
    obtain ⟨a, b⟩ := p
    intro i n hh
    rw [hget] at hh
    by_cases hj : a = i
    · rw [if_pos hj] at hh
      injection hh with hn
      subst hj
      subst hn
      exact List.mem_cons_self _ _
    · rw [if_neg hj] at hh
      exact List.mem_cons_of_mem _ (ih hh)

/-- Unfolding of `findA` at positive fuel on a live node. -/
lemma findA_succ (cmp : Int → Int → Int) (h : Heap) (f : Nat) (rid : NodeId)
    (v : Int) (nd : ANode) (hh : hget h rid = some nd) :
    findA cmp h (f + 1) (some rid) v =
      if cmp nd.data v = 0 then some rid
      else if cmp nd.data v > 0 then findA cmp h f nd.left v
      else findA cmp h f nd.right v := by
  rw [findA, hh]

/-- `find` can only return a node whose stored value compares equal, so
when no live node compares equal to `v` it returns null — at any fuel,
from any starting pointer. -/
lemma findA_none_of_absent (cmp : Int → Int → Int) (h : Heap) (v : Int)
    (hno : ∀ p ∈ h, cmp p.2.data v ≠ 0) :
    ∀ (f : Nat) (r : Option NodeId), findA cmp h f r v = none := by
  intro f
  induction f with
  | zero => intro r; rfl
  | succ f ih =>
    intro r
    match r with
    | none => rfl
    | some rid =>
      cases hh : hget h rid with
      | none => rw [findA, hh]
      | some rn =>
        rw [findA_succ cmp h f rid v rn hh]
        have hc : cmp rn.data v ≠ 0 := hno (rid, rn) (hget_mem hh)
        rw [if_neg hc]
        by_cases hgt0 : cmp rn.data v > 0
        · rw [if_pos hgt0]; exact ih rn.left
        · rw [if_neg hgt0]; exact ih rn.right

/-- C9.  When no live node's value compares equal to `v`, `find(v)`
returns null (at any fuel, hence in particular at the fuel the public
operations use) and `remove(v)` is a no-op: the whole state — root,
heap (hence structure and heights), and `size()` — is returned
unchanged, and no failure occurs. -/
theorem c9_absent_value_find_none_remove_noop (cmp : Int → Int → Int)
    (s : TState) (v : Int)
    (hno : ∀ p ∈ s.heap, cmp p.2.data v ≠ 0) :
    (∀ f : Nat, findA cmp s.heap f s.root v = none) ∧
    removeValA cmp s v = s := by
  have hf := findA_none_of_absent cmp s.heap v hno
  refine ⟨fun f => hf f s.root, ?_⟩
  rw [removeValA, hf (fuelOf s) s.root]
  rfl

/-- Witness for `c9_absent_value_find_none_remove_noop`: the two-node
base tree `{1, 2}` and the absent value `5`. -/
theorem c9_witness :
    (∀ p ∈ (buildBase [1, 2]).heap, defaultCmp p.2.data 5 ≠ 0) ∧
    removeValA defaultCmp (buildBase [1, 2]) 5 = buildBase [1, 2] :=
  ⟨by decide,
    (c9_absent_value_find_none_remove_noop defaultCmp (buildBase [1, 2]) 5 (by decide)).2⟩

/-! ## C10: removing the sole node of a one-element tree -/

/-- Climbing from a null pointer refreshes nothing. -/
lemma parentRefreshA_none (h : Heap) : ∀ f : Nat, parentRefreshA h f none = h := by
  intro f
  cases f <;> rfl

/-- Relinking from a null pointer changes nothing. -/
lemma parentRelinkA_none (h : Heap) (m : Option NodeId) :
    parentRelinkA h none m = h := rfl

/-- Removing (by node handle) a childless root with no parent empties the
tree: the stored root becomes null, `tree_size` goes to `0`, and the node
is freed. -/
lemma removeNodeA_sole (s : TState) (r : NodeId) (nd : ANode)
    (hroot : s.root = some r) (hr : hget s.heap r = some nd)
    (hl : nd.left = none) (hrt : nd.right = none) (hp : nd.parent = none) :
    removeNodeA s (some r) =
      { heap := herase s.heap r, root := none, size := s.size - 1, nextId := s.nextId } := by
  rw [removeNodeA, hr]
  have hrelink : parentRelinkA s.heap (some r) none = s.heap := by
    rw [parentRelinkA, hr]
    simp [hp]
  simp [hl, hrt, hp, hr, hroot, parentRelinkA_none, hrelink, parentRefreshA_none]

/-- C10.  Removing the sole node of a one-element tree — a childless,
parentless root — empties the tree whether done by node handle or by
value: afterwards `root()` is null, `size()` is `0`, and `height()` is
`0`.  (For removal by value the comparator must report the stored value
equal to itself, as the default comparator does.) -/
theorem c10_remove_sole_node_empties_tree (cmp : Int → Int → Int)
    (s : TState) (r : NodeId) (nd : ANode)
    (hroot : s.root = some r) (hr : hget s.heap r = some nd)
    (hl : nd.left = none) (hrt : nd.right = none) (hp : nd.parent = none)
    (hsz : s.size = 1) (hc : cmp nd.data nd.data = 0) :
    (removeNodeA s (some r)).root = none ∧
    (removeNodeA s (some r)).size = 0 ∧
    heightS (removeNodeA s (some r)) = 0 ∧
    (removeValA cmp s nd.data).root = none ∧
    (removeValA cmp s nd.data).size = 0 ∧
    heightS (removeValA cmp s nd.data) = 0 := by
  have hrm := removeNodeA_sole s r nd hroot hr hl hrt hp
  have hfind : findA cmp s.heap (fuelOf s) s.root nd.data = some r := by
    rw [hroot]
    show findA cmp s.heap (s.heap.length + 1) (some r) nd.data = some r
    rw [findA_succ cmp s.heap s.heap.length r nd.data nd hr, if_pos hc]
  have hrv : removeValA cmp s nd.data = removeNodeA s (some r) := by
    rw [removeValA, hfind]
  rw [hrm, hrv, hrm, hsz]
  exact ⟨rfl, rfl, rfl, rfl, rfl, rfl⟩

/-- Witness for `c10_remove_sole_node_empties_tree`: the one-node base
tree `{7}` under the default comparator. -/
theorem c10_witness :
    (buildBase [7]).root = some 0 ∧
    (removeValA defaultCmp (buildBase [7]) 7).root = none ∧
    (removeValA defaultCmp (buildBase [7]) 7).size = 0 ∧
    heightS (removeValA defaultCmp (buildBase [7]) 7) = 0 := by
  have h := c10_remove_sole_node_empties_tree defaultCmp (buildBase [7]) 0
    (ANode.mk 7 none none none 1) (by decide) (by decide) rfl rfl rfl (by decide) (by decide)
  exact ⟨by decide, h.2.2.2.1, h.2.2.2.2.1, h.2.2.2.2.2⟩

/-! ## C7: inserting a value that compares equal to a present value

Settled on the arena model, for an arbitrary comparator: when the
comparator-driven descent meets an equal-comparing node — the source's
`find(v)` returns a node, which is how the specification itself
characterizes "a value comparing equal to `v` is present" — the public
`insert(v)` hands back the state unchanged: same root, same `size()`,
and the very same id-to-record binding for every node, in particular
for the existing equal-comparing node, whose identity is therefore
preserved.  Only the freshly allocated node is created and freed again
(the source's `tree_size--; delete node;` branch), advancing nothing
but the allocation counter. -/

/-- `hget` on a cons cell. -/
lemma hget_cons (a : NodeId) (b : ANode) (t : Heap) (i : NodeId) :
    hget ((a, b) :: t) i = if a = i then some b else hget t i := rfl

/-- How a write through id `j` affects a read of id `i`. -/
lemma hget_hupd (h : Heap) (j : NodeId) (f : ANode → ANode) (i : NodeId) :
    hget (hupd h j f) i = if i = j then Option.map f (hget h i) else hget h i := by
  induction h with
  | nil => by_cases hij : i = j <;> simp [hget, hupd, hij]
  | cons p t ih =>
    obtain ⟨a, b⟩ := p
    show hget ((if a = j then (a, f b) else (a, b)) :: hupd t j f) i = _
    by_cases haj : a = j
    · rw [if_pos haj]
      by_cases hai : a = i
      · have hij : i = j := hai ▸ haj
        rw [hget_cons, if_pos hai, if_pos hij, hget_cons, if_pos hai]
        rfl
      · by_cases hij : i = j
        · rw [hget_cons, if_neg hai, ih, if_pos hij, if_pos hij, hget_cons, if_neg hai]
        · rw [hget_cons, if_neg hai, ih, if_neg hij, if_neg hij, hget_cons, if_neg hai]
    · rw [if_neg haj]
      by_cases hai : a = i
      · have hij : ¬ i = j := fun hh => haj (hai.trans hh)
        rw [hget_cons, if_pos hai, if_neg hij, hget_cons, if_pos hai]
      · by_cases hij : i = j
        · rw [hget_cons, if_neg hai, ih, if_pos hij, if_pos hij, hget_cons, if_neg hai]
        · rw [hget_cons, if_neg hai, ih, if_neg hij, if_neg hij, hget_cons, if_neg hai]

/-- How freeing id `j` affects a read of id `i`. -/
lemma hget_herase (h : Heap) (j i : NodeId) :
    hget (herase h j) i = if i = j then none else hget h i := by
  induction h with
  | nil => by_cases hij : i = j <;> simp [hget, herase, hij]
  | cons p t ih =>
    obtain ⟨a, b⟩ := p
    by_cases haj : a = j
    · have hstep : herase ((a, b) :: t) j = herase t j := by
        simp [herase, haj]
      rw [hstep, ih]
      by_cases hij : i = j
      · rw [if_pos hij, if_pos hij]
      · have hai : ¬ a = i := fun hh => hij (hh ▸ haj)
        rw [if_neg hij, if_neg hij, hget_cons, if_neg hai]
    · have hstep : herase ((a, b) :: t) j = (a, b) :: herase t j := by
        simp [herase, haj]
      rw [hstep]
      by_cases hai : a = i
      · have hij : ¬ i = j := fun hh => haj (hai.trans hh)
        rw [hget_cons, if_pos hai, if_neg hij, hget_cons, if_pos hai]
      · rw [hget_cons, if_neg hai, ih, hget_cons, if_neg hai]

/-- A write that stores back the value a node already has changes no
read. -/
lemma hupd_preserve (h : Heap) (j : NodeId) (f : ANode → ANode) (nd : ANode)
    (hj : hget h j = some nd) (hf : f nd = nd) :
    ∀ i : NodeId, hget (hupd h j f) i = hget h i := by
  intro i
  rw [hget_hupd]
  by_cases hi : i = j
  · rw [if_pos hi, hi, hj]
    simp [hf]
  · rw [if_neg hi]

/-- Pointwise form of the heap-wide height-cache invariant. -/
lemma heightCachesOk_at (h : Heap) (i : NodeId) (nd : ANode)
    (hca : heightCachesOkB h = true) (hi : hget h i = some nd) :
    nd.height = max (heightA h nd.left) (heightA h nd.right) + 1 := by
  rw [heightCachesOkB, List.all_eq_true] at hca
  have := hca (i, nd) (hget_mem hi)
  simpa using this

/-- `height(node *)` only depends on the read of the node it is given. -/
lemma heightA_ext (h g : Heap) (o : Option NodeId)
    (hsame : ∀ c : NodeId, o = some c → hget h c = hget g c) :
    heightA h o = heightA g o := by
  cases o with
  | none => rfl
  | some c =>
    show (match hget h c with | none => 0 | some nd => nd.height) = _
    rw [hsame c rfl]
    rfl

/-- Recomputing a cached height that is already correct changes no
read. -/
lemma refreshOne_preserve (h : Heap) (rid : NodeId) (rn : ANode)
    (hr : hget h rid = some rn)
    (hh : rn.height = max (heightA h rn.left) (heightA h rn.right) + 1) :
    ∀ i : NodeId, hget (refreshOne h rid) i = hget h i := by
  intro i
  rw [refreshOne, hr]
  exact hupd_preserve h rid _ rn hr (by rw [← hh]) i

/-- Fuel monotonicity of `find`: a successful lookup stays successful
with more fuel. -/
lemma findA_mono (cmp : Int → Int → Int) (h : Heap) (v : Int) :
    ∀ (f g : Nat) (r : Option NodeId) (e : NodeId), f ≤ g →
      findA cmp h f r v = some e → findA cmp h g r v = some e := by
  intro f
  induction f with
  | zero =>
    intro g r e _ hf
    rw [findA] at hf
    cases hf
  | succ f ih =>
    intro g r e hle hf
    match r with
    | none => rw [findA] at hf; cases hf
    | some rid =>
      obtain ⟨g1, rfl⟩ : ∃ g1, g = g1 + 1 := ⟨g - 1, by omega⟩
      cases hh : hget h rid with
      | none => rw [findA, hh] at hf; cases hf
      | some rn =>
        rw [findA_succ cmp h f rid v rn hh] at hf
        rw [findA_succ cmp h g1 rid v rn hh]
        by_cases hc0 : cmp rn.data v = 0
        · rw [if_pos hc0] at hf ⊢
          exact hf
        · rw [if_neg hc0] at hf ⊢
          by_cases hcg : cmp rn.data v > 0
          · rw [if_pos hcg] at hf ⊢
            exact ih g1 rn.left e (by omega) hf
          · rw [if_neg hcg] at hf ⊢
            exact ih g1 rn.right e (by omega) hf

/-- `find` returns only live nodes whose value compares equal. -/
lemma findA_some_cmp (cmp : Int → Int → Int) (h : Heap) (v : Int) :
    ∀ (f : Nat) (r : Option NodeId) (e : NodeId),
      findA cmp h f r v = some e →
      ∃ nd : ANode, hget h e = some nd ∧ cmp nd.data v = 0 := by
  intro f
  induction f with
  | zero =>
    intro r e hf
    rw [findA] at hf
    cases hf
  | succ f ih =>
    intro r e hf
    match r with
    | none => rw [findA] at hf; cases hf
    | some rid =>
      cases hh : hget h rid with
      | none => rw [findA, hh] at hf; cases hf
      | some rn =>
        rw [findA_succ cmp h f rid v rn hh] at hf
        by_cases hc0 : cmp rn.data v = 0
        · rw [if_pos hc0] at hf
          injection hf with he
          subst he
          exact ⟨rn, hh, hc0⟩
        · rw [if_neg hc0] at hf
          by_cases hcg : cmp rn.data v > 0
          · rw [if_pos hcg] at hf
            exact ih rn.left e hf
          · rw [if_neg hcg] at hf
            exact ih rn.right e hf

/-- Unfolding of the recursive arena insert when the comparator sends
the new node left (the source's `cmp > 0` branch, with the left child
present). -/
lemma insertA_succ_gt (bal : Heap → NodeId → Heap × NodeId) (cmp : Int → Int → Int)
    (f : Nat) (W : Heap) (rid nid lid : NodeId) (rn nd0 : ANode)
    (hW : hget W rid = some rn) (hn : hget W nid = some nd0)
    (hc : cmp rn.data nd0.data > 0) (hL : rn.left = some lid) :
    insertA bal cmp (f + 1) W (some rid) nid =
      (let W3 := hupd (hupd W nid (fun n => { n with parent := some rid })) nid
          (fun n => { n with parent := some lid })
       let p := insertA bal cmp f W3 (some lid) nid
       let q := bal (refreshOne (hupd p.1 rid (fun n => { n with left := p.2.1 })) rid) rid
       (q.1, some q.2, p.2.2)) := by
  rw [insertA, hW, hn]
  simp only [hL, if_pos hc, if_neg (show ¬ cmp rn.data nd0.data = 0 by omega)]

/-- Unfolding of the recursive arena insert when the comparator sends
the new node right (the source's `cmp < 0` branch, with the right child
present). -/
lemma insertA_succ_lt (bal : Heap → NodeId → Heap × NodeId) (cmp : Int → Int → Int)
    (f : Nat) (W : Heap) (rid nid rid2 : NodeId) (rn nd0 : ANode)
    (hW : hget W rid = some rn) (hn : hget W nid = some nd0)
    (hc : cmp rn.data nd0.data < 0) (hR : rn.right = some rid2) :
    insertA bal cmp (f + 1) W (some rid) nid =
      (let W3 := hupd (hupd W nid (fun n => { n with parent := some rid })) nid
          (fun n => { n with parent := some rid2 })
       let p := insertA bal cmp f W3 (some rid2) nid
       let q := bal (refreshOne (hupd p.1 rid (fun n => { n with right := p.2.1 })) rid) rid
       (q.1, some q.2, p.2.2)) := by
  rw [insertA, hW, hn]
  simp only [hR, if_pos hc, if_neg (show ¬ cmp rn.data nd0.data = 0 by omega),
    if_neg (show ¬ cmp rn.data nd0.data > 0 by omega)]

/-- Unfolding of the recursive arena insert when the comparator reports
the new node's value equal to the current root's: the new node is freed
(`tree_size--` is the returned flag), the undefined-behavior write
through the freed pointer is inert, no recursion happens, the root's
height is recomputed and the balance hook consulted. -/
lemma insertA_succ_eq0 (bal : Heap → NodeId → Heap × NodeId) (cmp : Int → Int → Int)
    (f : Nat) (W : Heap) (rid nid : NodeId) (rn nd0 : ANode)
    (hW : hget W rid = some rn) (hn : hget W nid = some nd0)
    (hc : cmp rn.data nd0.data = 0) :
    insertA bal cmp (f + 1) W (some rid) nid =
      (let q := bal (refreshOne
          (hupd (herase W nid) nid (fun n => { n with parent := some rid })) rid) rid
       (q.1, some q.2, true)) := by
  rw [insertA, hW, hn]
  simp only [if_pos hc, if_neg (show ¬ cmp rn.data nd0.data > 0 by omega),
    if_neg (show ¬ cmp rn.data nd0.data < 0 by omega)]

/-- `find` from a null pointer fails at any fuel. -/
lemma findA_none_start (cmp : Int → Int → Int) (h : Heap) (v : Int) :
    ∀ f : Nat, findA cmp h f none v = none := by
  intro f
  cases f <;> rfl

/-- Component form of `insertA_succ_gt` for the base (identity) hook. -/
lemma insertA_base_gt_comp (cmp : Int → Int → Int) (f : Nat) (W : Heap)
    (rid nid lid : NodeId) (rn nd0 : ANode)
    (hW : hget W rid = some rn) (hn : hget W nid = some nd0)
    (hc : cmp rn.data nd0.data > 0) (hL : rn.left = some lid) :
    (insertA balanceBaseA cmp (f + 1) W (some rid) nid).1 =
      refreshOne (hupd (insertA balanceBaseA cmp f
        (hupd (hupd W nid (fun n => { n with parent := some rid })) nid
          (fun n => { n with parent := some lid })) (some lid) nid).1 rid
        (fun n => { n with left := (insertA balanceBaseA cmp f
          (hupd (hupd W nid (fun n => { n with parent := some rid })) nid
            (fun n => { n with parent := some lid })) (some lid) nid).2.1 })) rid ∧
    (insertA balanceBaseA cmp (f + 1) W (some rid) nid).2.1 = some rid ∧
    (insertA balanceBaseA cmp (f + 1) W (some rid) nid).2.2 =
      (insertA balanceBaseA cmp f
        (hupd (hupd W nid (fun n => { n with parent := some rid })) nid
          (fun n => { n with parent := some lid })) (some lid) nid).2.2 := by
  rw [insertA_succ_gt balanceBaseA cmp f W rid nid lid rn nd0 hW hn hc hL]
  exact ⟨rfl, rfl, rfl⟩

/-- Component form of `insertA_succ_lt` for the base (identity) hook. -/
lemma insertA_base_lt_comp (cmp : Int → Int → Int) (f : Nat) (W : Heap)
    (rid nid rid2 : NodeId) (rn nd0 : ANode)
    (hW : hget W rid = some rn) (hn : hget W nid = some nd0)
    (hc : cmp rn.data nd0.data < 0) (hR : rn.right = some rid2) :
    (insertA balanceBaseA cmp (f + 1) W (some rid) nid).1 =
      refreshOne (hupd (insertA balanceBaseA cmp f
        (hupd (hupd W nid (fun n => { n with parent := some rid })) nid
          (fun n => { n with parent := some rid2 })) (some rid2) nid).1 rid
        (fun n => { n with right := (insertA balanceBaseA cmp f
          (hupd (hupd W nid (fun n => { n with parent := some rid })) nid
            (fun n => { n with parent := some rid2 })) (some rid2) nid).2.1 })) rid ∧
    (insertA balanceBaseA cmp (f + 1) W (some rid) nid).2.1 = some rid ∧
    (insertA balanceBaseA cmp (f + 1) W (some rid) nid).2.2 =
      (insertA balanceBaseA cmp f
        (hupd (hupd W nid (fun n => { n with parent := some rid })) nid
          (fun n => { n with parent := some rid2 })) (some rid2) nid).2.2 := by
  rw [insertA_succ_lt balanceBaseA cmp f W rid nid rid2 rn nd0 hW hn hc hR]
  exact ⟨rfl, rfl, rfl⟩

/-- Component form of `insertA_succ_eq0` for the base (identity) hook. -/
lemma insertA_base_eq0_comp (cmp : Int → Int → Int) (f : Nat) (W : Heap)
    (rid nid : NodeId) (rn nd0 : ANode)
    (hW : hget W rid = some rn) (hn : hget W nid = some nd0)
    (hc : cmp rn.data nd0.data = 0) :
    (insertA balanceBaseA cmp (f + 1) W (some rid) nid).1 =
      refreshOne (hupd (herase W nid) nid (fun n => { n with parent := some rid })) rid ∧
    (insertA balanceBaseA cmp (f + 1) W (some rid) nid).2.1 = some rid ∧
    (insertA balanceBaseA cmp (f + 1) W (some rid) nid).2.2 = true := by
  rw [insertA_succ_eq0 balanceBaseA cmp f W rid nid rn nd0 hW hn hc]
  exact ⟨rfl, rfl, rfl⟩

/-- Main induction for C7, on the arena.  `H0` is the pre-insert heap,
`nid` the freshly allocated node id (unknown to `H0` and to every link
in it) carrying the value `v`.  When `find` reaches an equal-comparing
node from `r` in `H0`, the recursive insert started at `r` on any heap
`W` that differs from `H0` only at `nid` returns the subtree root `r`
itself, reports the `cmp == 0` branch, and leaves a heap that reads
exactly like `H0` everywhere except `nid`, which has been freed: every
pointer write it performs on the way back up stores the value the node
already holds. -/
lemma insertA_equal_noop (cmp : Int → Int → Int) (H0 : Heap) (nid : NodeId)
    (v : Int) (e : NodeId)
    (hfresh : hget H0 nid = none)
    (hca : heightCachesOkB H0 = true)
    (hnolink : ∀ (i : NodeId) (nd : ANode), hget H0 i = some nd →
      nd.left ≠ some nid ∧ nd.right ≠ some nid) :
    ∀ (f : Nat) (W : Heap) (r : NodeId),
      findA cmp H0 f (some r) v = some e →
      (∀ i : NodeId, i ≠ nid → hget W i = hget H0 i) →
      Option.map ANode.data (hget W nid) = some v →
      (insertA balanceBaseA cmp f W (some r) nid).2.1 = some r ∧
      (insertA balanceBaseA cmp f W (some r) nid).2.2 = true ∧
      (∀ i : NodeId, i ≠ nid →
        hget (insertA balanceBaseA cmp f W (some r) nid).1 i = hget H0 i) ∧
      hget (insertA balanceBaseA cmp f W (some r) nid).1 nid = none := by
  intro f
  induction f with
  | zero =>
    intro W r hfind _ _
    rw [findA] at hfind
    cases hfind
  | succ f ih =>
    intro W r hfind hsame hnid
    obtain ⟨rn, hr0⟩ : ∃ rn, hget H0 r = some rn := by
      cases hh : hget H0 r with
      | none => rw [findA, hh] at hfind; cases hfind
      | some rn => exact ⟨rn, rfl⟩
    have hrne : r ≠ nid := fun hh => by rw [hh, hfresh] at hr0; cases hr0
    have hWr : hget W r = some rn := by rw [hsame r hrne, hr0]
    obtain ⟨nd0, hnd0, hd0⟩ : ∃ nd0, hget W nid = some nd0 ∧ nd0.data = v := by
      cases hh : hget W nid with
      | none => rw [hh] at hnid; cases hnid
      | some nd0 =>
        rw [hh] at hnid
        exact ⟨nd0, rfl, by simpa using hnid⟩
    rw [findA_succ cmp H0 f r v rn hr0] at hfind
    rcases lt_trichotomy (cmp rn.data v) 0 with hc | hc | hc
    · -- the comparator sends both `find` and `insert` right
      rw [if_neg (by omega), if_neg (by omega)] at hfind
      obtain ⟨c0, hRc⟩ : ∃ c0, rn.right = some c0 := by
        cases hh : rn.right with
        | none => rw [hh, findA_none_start] at hfind; cases hfind
        | some c0 => exact ⟨c0, rfl⟩
      rw [hRc] at hfind
      set W3 := hupd (hupd W nid (fun n => { n with parent := some r })) nid
        (fun n => { n with parent := some c0 }) with hW3
      have hsame3 : ∀ i : NodeId, i ≠ nid → hget W3 i = hget H0 i := by
        intro i hi
        rw [hW3, hget_hupd, if_neg hi, hget_hupd, if_neg hi]
        exact hsame i hi
      have hnid3 : Option.map ANode.data (hget W3 nid) = some v := by
        rw [hW3, hget_hupd, if_pos rfl, hget_hupd, if_pos rfl, hnd0]
        simpa using hd0
      obtain ⟨g1, g2, g3, g4⟩ := ih W3 c0 hfind hsame3 hnid3
      obtain ⟨hc1, hc2, hc3⟩ := insertA_base_lt_comp cmp f W r nid c0 rn nd0 hWr hnd0
        (by rw [hd0]; exact hc) hRc
      rw [← hW3] at hc1 hc3
      set P := insertA balanceBaseA cmp f W3 (some c0) nid with hP
      set H4 := hupd P.1 r (fun n => { n with right := P.2.1 }) with hH4
      have hpr : hget P.1 r = some rn := by rw [g3 r hrne]; exact hr0
      have hfr : (fun n => { n with right := P.2.1 }) rn = rn := by
        show { rn with right := P.2.1 } = rn
        rw [g1, ← hRc]
      have h4 : ∀ i : NodeId, hget H4 i = hget P.1 i := by
        rw [hH4]
        exact hupd_preserve P.1 r _ rn hpr hfr
      have hLne := hnolink r rn hr0
      have hhL : heightA H4 rn.left = heightA H0 rn.left := by
        apply heightA_ext
        intro c hcx
        have hcne : c ≠ nid := fun hh => hLne.1 (by rw [← hh]; exact hcx)
        rw [h4 c, g3 c hcne]
      have hhR : heightA H4 rn.right = heightA H0 rn.right := by
        apply heightA_ext
        intro c hcx
        have hcne : c ≠ nid := fun hh => hLne.2 (by rw [← hh]; exact hcx)
        rw [h4 c, g3 c hcne]
      have hch : rn.height = max (heightA H4 rn.left) (heightA H4 rn.right) + 1 := by
        rw [hhL, hhR]
        exact heightCachesOk_at H0 r rn hca hr0
      have h5 := refreshOne_preserve H4 r rn (by rw [h4 r]; exact hpr) hch
      refine ⟨by rw [hc2], by rw [hc3]; exact g2, ?_, ?_⟩
      · intro i hi
        rw [hc1, h5 i, h4 i]
        exact g3 i hi
      · rw [hc1, h5 nid, h4 nid]
        exact g4
    · -- `find` stops here; `insert` frees the new node and unwinds
      obtain ⟨hc1, hc2, hc3⟩ := insertA_base_eq0_comp cmp f W r nid rn nd0 hWr hnd0
        (by rw [hd0]; exact hc)
      set H1 := herase W nid with hH1
      set H2 := hupd H1 nid (fun n => { n with parent := some r }) with hH2
      have h1same : ∀ i : NodeId, i ≠ nid → hget H1 i = hget H0 i := by
        intro i hi
        rw [hH1, hget_herase, if_neg hi]
        exact hsame i hi
      have h1nid : hget H1 nid = none := by
        rw [hH1, hget_herase, if_pos rfl]
      have h2same : ∀ i : NodeId, hget H2 i = hget H1 i := by
        intro i
        rw [hH2, hget_hupd]
        by_cases hi : i = nid
        · rw [if_pos hi, hi, h1nid]
          rfl
        · rw [if_neg hi]
      have h2r : hget H2 r = some rn := by
        rw [h2same r, h1same r hrne]
        exact hr0
      have hLne := hnolink r rn hr0
      have hhL : heightA H2 rn.left = heightA H0 rn.left := by
        apply heightA_ext
        intro c hcx
        have hcne : c ≠ nid := fun hh => hLne.1 (by rw [← hh]; exact hcx)
        rw [h2same c, h1same c hcne]
      have hhR : heightA H2 rn.right = heightA H0 rn.right := by
        apply heightA_ext
        intro c hcx
        have hcne : c ≠ nid := fun hh => hLne.2 (by rw [← hh]; exact hcx)
        rw [h2same c, h1same c hcne]
      have hch : rn.height = max (heightA H2 rn.left) (heightA H2 rn.right) + 1 := by
        rw [hhL, hhR]
        exact heightCachesOk_at H0 r rn hca hr0
      have h5 := refreshOne_preserve H2 r rn h2r hch
      refine ⟨by rw [hc2], by rw [hc3], ?_, ?_⟩
      · intro i hi
        rw [hc1, h5 i, h2same i]
        exact h1same i hi
      · rw [hc1, h5 nid, h2same nid]
        exact h1nid
    · -- the comparator sends both `find` and `insert` left
      rw [if_neg (by omega), if_pos hc] at hfind
      obtain ⟨c0, hLc⟩ : ∃ c0, rn.left = some c0 := by
        cases hh : rn.left with
        | none => rw [hh, findA_none_start] at hfind; cases hfind
        | some c0 => exact ⟨c0, rfl⟩
      rw [hLc] at hfind
      set W3 := hupd (hupd W nid (fun n => { n with parent := some r })) nid
        (fun n => { n with parent := some c0 }) with hW3
      have hsame3 : ∀ i : NodeId, i ≠ nid → hget W3 i = hget H0 i := by
        intro i hi
        rw [hW3, hget_hupd, if_neg hi, hget_hupd, if_neg hi]
        exact hsame i hi
      have hnid3 : Option.map ANode.data (hget W3 nid) = some v := by
        rw [hW3, hget_hupd, if_pos rfl, hget_hupd, if_pos rfl, hnd0]
        simpa using hd0
      obtain ⟨g1, g2, g3, g4⟩ := ih W3 c0 hfind hsame3 hnid3
      obtain ⟨hc1, hc2, hc3⟩ := insertA_base_gt_comp cmp f W r nid c0 rn nd0 hWr hnd0
        (by rw [hd0]; exact hc) hLc
      rw [← hW3] at hc1 hc3
      set P := insertA balanceBaseA cmp f W3 (some c0) nid with hP
      set H4 := hupd P.1 r (fun n => { n with left := P.2.1 }) with hH4
      have hpr : hget P.1 r = some rn := by rw [g3 r hrne]; exact hr0
      have hfr : (fun n => { n with left := P.2.1 }) rn = rn := by
        show { rn with left := P.2.1 } = rn
        rw [g1, ← hLc]
      have h4 : ∀ i : NodeId, hget H4 i = hget P.1 i := by
        rw [hH4]
        exact hupd_preserve P.1 r _ rn hpr hfr
      have hLne := hnolink r rn hr0
      have hhL : heightA H4 rn.left = heightA H0 rn.left := by
        apply heightA_ext
        intro c hcx
        have hcne : c ≠ nid := fun hh => hLne.1 (by rw [← hh]; exact hcx)
        rw [h4 c, g3 c hcne]
      have hhR : heightA H4 rn.right = heightA H0 rn.right := by
        apply heightA_ext
        intro c hcx
        have hcne : c ≠ nid := fun hh => hLne.2 (by rw [← hh]; exact hcx)
        rw [h4 c, g3 c hcne]
      have hch : rn.height = max (heightA H4 rn.left) (heightA H4 rn.right) + 1 := by
        rw [hhL, hhR]
        exact heightCachesOk_at H0 r rn hca hr0
      have h5 := refreshOne_preserve H4 r rn (by rw [h4 r]; exact hpr) hch
      refine ⟨by rw [hc2], by rw [hc3]; exact g2, ?_, ?_⟩
      · intro i hi
        rw [hc1, h5 i, h4 i]
        exact g3 i hi
      · rw [hc1, h5 nid, h4 nid]
        exact g4

/-- C7.  For every tree state, every comparator, and every value `v`
that compares equal (under that comparator) to a value already present
— rendered, as the specification itself renders presence, by `find(v)`
returning a node `e` — the public `insert(v)` changes nothing
observable: the stored root is unchanged, `size()` is unchanged (the
provisional increment is undone by the `cmp == 0` branch), every node
id reads back the very same record as before — so the tree's shape and
cached heights are unchanged and, in particular, the existing
equal-comparing node `e` keeps its identity and its exact contents —
and the freshly allocated node has been freed again.  Side conditions:
the next allocation id is genuinely fresh (unallocated and referenced
by no link) and the height caches are correct, as they are in every
tree the structure itself builds. -/
theorem c7_equal_insert_preserves_state (cmp : Int → Int → Int)
    (s : TState) (v : Int) (e : NodeId)
    (hfresh : hget s.heap s.nextId = none)
    (hnl : ∀ p ∈ s.heap, p.2.left ≠ some s.nextId ∧ p.2.right ≠ some s.nextId)
    (hca : heightCachesOkB s.heap = true)
    (hfind : findA cmp s.heap (fuelOf s) s.root v = some e) :
    (insertValA balanceBaseA cmp s v).root = s.root ∧
    (insertValA balanceBaseA cmp s v).size = s.size ∧
    (∀ i : NodeId, i ≠ s.nextId →
      hget (insertValA balanceBaseA cmp s v).heap i = hget s.heap i) ∧
    hget (insertValA balanceBaseA cmp s v).heap s.nextId = none ∧
    ∃ nd : ANode, hget s.heap e = some nd ∧ cmp nd.data v = 0 ∧
      hget (insertValA balanceBaseA cmp s v).heap e = some nd := by
  obtain ⟨r, hroot⟩ : ∃ r, s.root = some r := by
    cases hh : s.root with
    | none =>
      rw [hh, show fuelOf s = s.heap.length + 1 from rfl, findA] at hfind
      cases hfind
    | some r => exact ⟨r, rfl⟩
  have hnolink : ∀ (i : NodeId) (nd : ANode), hget s.heap i = some nd →
      nd.left ≠ some s.nextId ∧ nd.right ≠ some s.nextId :=
    fun i nd hi => hnl (i, nd) (hget_mem hi)
  have hfind2 : findA cmp s.heap (s.heap.length + 2) (some r) v = some e := by
    have hmono := findA_mono cmp s.heap v (fuelOf s) (s.heap.length + 2) s.root e
      (by rw [show fuelOf s = s.heap.length + 1 from rfl]; omega) hfind
    rw [hroot] at hmono
    exact hmono
  have hsame0 : ∀ i : NodeId, i ≠ s.nextId →
      hget ((s.nextId, ANode.mk v none none none 1) :: s.heap) i = hget s.heap i := by
    intro i hi
    rw [hget_cons, if_neg (fun hh => hi hh.symm)]
  have hnid0 : Option.map ANode.data
      (hget ((s.nextId, ANode.mk v none none none 1) :: s.heap) s.nextId) = some v := by
    rw [hget_cons, if_pos rfl]
    rfl
  obtain ⟨g1, g2, g3, g4⟩ := insertA_equal_noop cmp s.heap s.nextId v e hfresh hca hnolink
    (s.heap.length + 2) ((s.nextId, ANode.mk v none none none 1) :: s.heap) r
    hfind2 hsame0 hnid0
  have hunfold : insertValA balanceBaseA cmp s v =
      { heap := (insertA balanceBaseA cmp (s.heap.length + 2)
          ((s.nextId, ANode.mk v none none none 1) :: s.heap) (some r) s.nextId).1,
        root := (insertA balanceBaseA cmp (s.heap.length + 2)
          ((s.nextId, ANode.mk v none none none 1) :: s.heap) (some r) s.nextId).2.1,
        size := s.size + 1 - (if (insertA balanceBaseA cmp (s.heap.length + 2)
          ((s.nextId, ANode.mk v none none none 1) :: s.heap) (some r) s.nextId).2.2
          then 1 else 0),
        nextId := s.nextId + 1 } := by
    rw [insertValA, hroot]
    rfl
  refine ⟨?_, ?_, ?_, ?_, ?_⟩
  · rw [hunfold, hroot]
    exact g1
  · rw [hunfold]
    show s.size + 1 - (if (insertA balanceBaseA cmp (s.heap.length + 2)
      ((s.nextId, ANode.mk v none none none 1) :: s.heap) (some r) s.nextId).2.2
      then 1 else 0) = s.size
    rw [g2]
    simp
  · intro i hi
    rw [hunfold]
    exact g3 i hi
  · rw [hunfold]
    exact g4
  · obtain ⟨nd, hnd, hcmp⟩ := findA_some_cmp cmp s.heap v (fuelOf s) s.root e hfind
    have hene : e ≠ s.nextId := fun hh => by rw [hh, hfresh] at hnd; cases hnd
    refine ⟨nd, hnd, hcmp, ?_⟩
    rw [hunfold]
    show hget (insertA balanceBaseA cmp (s.heap.length + 2)
      ((s.nextId, ANode.mk v none none none 1) :: s.heap) (some r) s.nextId).1 e = some nd
    rw [g3 e hene]
    exact hnd

/-- Witness for `c7_equal_insert_preserves_state`: re-inserting `1`
into the base tree built from `2, 1, 3` (`find(1)` returns the node
with id 1); root, size, and the equal node's heap record are unchanged. -/
theorem c7_witness :
    (insertValA balanceBaseA defaultCmp (buildBase [2, 1, 3]) 1).root =
      (buildBase [2, 1, 3]).root ∧
    (insertValA balanceBaseA defaultCmp (buildBase [2, 1, 3]) 1).size =
      (buildBase [2, 1, 3]).size ∧
    hget (insertValA balanceBaseA defaultCmp (buildBase [2, 1, 3]) 1).heap 1 =
      hget (buildBase [2, 1, 3]).heap 1 := by
  have h := c7_equal_insert_preserves_state defaultCmp (buildBase [2, 1, 3]) 1 1
    (by decide) (by decide) (by decide) (by decide)
  exact ⟨h.1, h.2.1, h.2.2.1 1 (by decide)⟩

/-! ## C2: the AVL invariant after insertion-only workloads

The proof follows the classic AVL argument: on a height-correct,
balanced tree, the recursive insert changes each subtree's height by at
most one, a subtree that grew is never perfectly balanced (unless it is
a fresh leaf), and whenever the unwinding finds a factor of `±2` the
matching single or double rotation restores factor `0` at the spot and
the subtree's original height. -/

/-- True height of the structure, ignoring the caches. -/
def realHgt : TreeF → Nat
  | .nil => 0
  | .node _ l r _ => max (realHgt l) (realHgt r) + 1

/-- Balance of every node, computed from true subtree heights. -/
def avlBalR : TreeF → Bool
  | .nil => true
  | .node _ l r _ =>
      ((realHgt l : Int) - (realHgt r : Int)).natAbs ≤ 1 && avlBalR l && avlBalR r

/-- Correct caches mean the cached height is the true height. -/
lemma hgt_eq_realHgt : ∀ t : TreeF, heightOkB t = true → hgt t = realHgt t := by
  intro t
  induction t with
  | nil => intro _; rfl
  | node d l r h ihl ihr =>
    intro hh
    rw [heightOkB] at hh
    simp only [Bool.and_eq_true, beq_iff_eq] at hh
    obtain ⟨⟨hhh, hhl⟩, hhr⟩ := hh
    rw [hgt, realHgt, hhh, ihl hhl, ihr hhr]

/-- With correct caches, cached balance everywhere gives true balance
everywhere. -/
lemma avlBalR_of_avlBalB : ∀ t : TreeF,
    heightOkB t = true → avlBalB t = true → avlBalR t = true := by
  intro t
  induction t with
  | nil => intro _ _; rfl
  | node d l r h ihl ihr =>
    intro hh hb
    rw [heightOkB] at hh
    rw [avlBalB] at hb
    simp only [Bool.and_eq_true, beq_iff_eq] at hh hb
    obtain ⟨⟨hhh, hhl⟩, hhr⟩ := hh
    obtain ⟨⟨hbb, hbl⟩, hbr⟩ := hb
    rw [avlBalR]
    simp only [Bool.and_eq_true]
    refine ⟨⟨?_, ihl hhl hbl⟩, ihr hhr hbr⟩
    rw [← hgt_eq_realHgt l hhl, ← hgt_eq_realHgt r hhr]
    simpa using hbb

/-- `balance` leaves a node with factor in `[-1, 1]` unchanged. -/
lemma balanceAvl_id (t : TreeF) (h1 : -1 ≤ difference t) (h2 : difference t ≤ 1) :
    balanceAvl t = t := by
  simp only [balanceAvl]
  rw [if_neg (by omega), if_neg (by omega)]

/-- `balance` on a factor above `1` dispatches on the left child's
factor: LL when positive, LR otherwise. -/
lemma balanceAvl_left_heavy (t : TreeF) (h : difference t > 1) :
    balanceAvl t = if difference (leftOf t) > 0 then ll_rotate t else lr_rotate t := by
  simp only [balanceAvl]
  rw [if_pos h]

/-- `balance` on a factor below `-1` dispatches on the right child's
factor: RL when positive, RR otherwise. -/
lemma balanceAvl_right_heavy (t : TreeF) (h : difference t < -1) :
    balanceAvl t = if difference (rightOf t) > 0 then rl_rotate t else rr_rotate t := by
  simp only [balanceAvl]
  rw [if_neg (by omega), if_pos h]

/-- Effect of the single LL rotation in the situation the insertion
unwinding produces it: left subtree two levels taller than the right,
left child left-leaning.  The result is height-correct, balanced, and
has height `hgt r + 2` (the height the node had before the insertion). -/
lemma ll_rotate_spec (d ld : Int) (ll lr r : TreeF) (lh H : Nat)
    (h1 : heightOkB ll = true) (h2 : heightOkB lr = true) (h3 : heightOkB r = true)
    (b1 : avlBalB ll = true) (b2 : avlBalB lr = true) (b3 : avlBalB r = true)
    (e2 : hgt ll = hgt r + 1) (e3 : hgt lr = hgt r) :
    heightOkB (ll_rotate (.node d (.node ld ll lr lh) r H)) = true ∧
    avlBalB (ll_rotate (.node d (.node ld ll lr lh) r H)) = true ∧
    hgt (ll_rotate (.node d (.node ld ll lr lh) r H)) = hgt r + 2 := by
  simp only [ll_rotate, heightOkB, avlBalB, hgt_nil, hgt_node, Bool.and_eq_true,
    beq_iff_eq, decide_eq_true_eq, h1, h2, h3, b1, b2, b3, and_true, true_and]
  omega

/-- Mirror image: effect of the single RR rotation when the right
subtree is two levels taller and the right child right-leaning. -/
lemma rr_rotate_spec (d rd : Int) (l rl rr : TreeF) (rh H : Nat)
    (h1 : heightOkB l = true) (h2 : heightOkB rl = true) (h3 : heightOkB rr = true)
    (b1 : avlBalB l = true) (b2 : avlBalB rl = true) (b3 : avlBalB rr = true)
    (e2 : hgt rr = hgt l + 1) (e3 : hgt rl = hgt l) :
    heightOkB (rr_rotate (.node d l (.node rd rl rr rh) H)) = true ∧
    avlBalB (rr_rotate (.node d l (.node rd rl rr rh) H)) = true ∧
    hgt (rr_rotate (.node d l (.node rd rl rr rh) H)) = hgt l + 2 := by
  simp only [rr_rotate, heightOkB, avlBalB, hgt_nil, hgt_node, Bool.and_eq_true,
    beq_iff_eq, decide_eq_true_eq, h1, h2, h3, b1, b2, b3, and_true, true_and]
  omega

/-- Effect of the double LR rotation in the situation the insertion
unwinding produces it: left subtree two levels taller, left child
right-leaning (so its right child is a node whose subtrees are at most
one apart and whose taller side reaches `hgt r`).  The result is
height-correct, balanced, and has height `hgt r + 2`. -/
lemma lr_rotate_spec (d ld md : Int) (ll m1 m2 r : TreeF) (mh lh H : Nat)
    (h1 : heightOkB ll = true) (h2 : heightOkB m1 = true)
    (h3 : heightOkB m2 = true) (h4 : heightOkB r = true)
    (b1 : avlBalB ll = true) (b2 : avlBalB m1 = true)
    (b3 : avlBalB m2 = true) (b4 : avlBalB r = true)
    (e2 : hgt ll = hgt r) (e3 : max (hgt m1) (hgt m2) = hgt r)
    (e4 : ((hgt m1 : Int) - hgt m2).natAbs ≤ 1) :
    heightOkB (lr_rotate (.node d (.node ld ll (.node md m1 m2 mh) lh) r H)) = true ∧
    avlBalB (lr_rotate (.node d (.node ld ll (.node md m1 m2 mh) lh) r H)) = true ∧
    hgt (lr_rotate (.node d (.node ld ll (.node md m1 m2 mh) lh) r H)) = hgt r + 2 := by
  simp only [lr_rotate, rr_rotate, ll_rotate, heightOkB, avlBalB, hgt_nil, hgt_node,
    Bool.and_eq_true, beq_iff_eq, decide_eq_true_eq,
    h1, h2, h3, h4, b1, b2, b3, b4, and_true, true_and]
  omega

/-- Mirror image: effect of the double RL rotation when the right
subtree is two levels taller and the right child left-leaning. -/
lemma rl_rotate_spec (d rd md : Int) (l m1 m2 rr : TreeF) (mh rh H : Nat)
    (h1 : heightOkB l = true) (h2 : heightOkB m1 = true)
    (h3 : heightOkB m2 = true) (h4 : heightOkB rr = true)
    (b1 : avlBalB l = true) (b2 : avlBalB m1 = true)
    (b3 : avlBalB m2 = true) (b4 : avlBalB rr = true)
    (e2 : hgt rr = hgt l) (e3 : max (hgt m1) (hgt m2) = hgt l)
    (e4 : ((hgt m1 : Int) - hgt m2).natAbs ≤ 1) :
    heightOkB (rl_rotate (.node d l (.node rd (.node md m1 m2 mh) rr rh) H)) = true ∧
    avlBalB (rl_rotate (.node d l (.node rd (.node md m1 m2 mh) rr rh) H)) = true ∧
    hgt (rl_rotate (.node d l (.node rd (.node md m1 m2 mh) rr rh) H)) = hgt l + 2 := by
  simp only [rl_rotate, ll_rotate, rr_rotate, heightOkB, avlBalB, hgt_nil, hgt_node,
    Bool.and_eq_true, beq_iff_eq, decide_eq_true_eq,
    h1, h2, h3, h4, b1, b2, b3, b4, and_true, true_and]
  omega

/-- Unfolding of the recursive insert when the comparator sends the new
value right. -/
lemma insertT_node_lt (bal : TreeF → TreeF) (cmp : Int → Int → Int)
    (d : Int) (l r : TreeF) (h : Nat) (x : Int) (hc : cmp d x < 0) :
    insertT bal cmp (.node d l r h) x =
      (bal (.node d l (insertT bal cmp r x).1
        (max (hgt l) (hgt (insertT bal cmp r x).1) + 1)),
       (insertT bal cmp r x).2) := by
  rw [insertT]
  have h1 : ¬ cmp d x > 0 := by omega
  have h2 : (cmp d x == 0) = false := by
    simp only [beq_eq_false_iff_ne, ne_eq]
    omega
  simp [h1, hc, h2]

/-- Unfolding of the recursive insert when the comparator sends the new
value left. -/
lemma insertT_node_gt (bal : TreeF → TreeF) (cmp : Int → Int → Int)
    (d : Int) (l r : TreeF) (h : Nat) (x : Int) (hc : cmp d x > 0) :
    insertT bal cmp (.node d l r h) x =
      (bal (.node d (insertT bal cmp l x).1 r
        (max (hgt (insertT bal cmp l x).1) (hgt r) + 1)),
       (insertT bal cmp l x).2) := by
  rw [insertT]
  have h1 : ¬ cmp d x < 0 := by omega
  have h2 : (cmp d x == 0) = false := by
    simp only [beq_eq_false_iff_ne, ne_eq]
    omega
  simp [h1, hc, h2]

/-- Unfolding of the recursive insert when the comparator reports the
value equal to the root's: no recursion, but the height recomputation
and the balance hook still run. -/
lemma insertT_node_eq0 (bal : TreeF → TreeF) (cmp : Int → Int → Int)
    (d : Int) (l r : TreeF) (h : Nat) (x : Int) (hc : cmp d x = 0) :
    insertT bal cmp (.node d l r h) x =
      (bal (.node d l r (max (hgt l) (hgt r) + 1)), true) := by
  rw [insertT]
  have h1 : ¬ cmp d x < 0 := by omega
  have h2 : ¬ cmp d x > 0 := by omega
  simp [h1, h2, hc]

/-- First components of the three unfoldings, for rewriting goals that
only mention the returned subtree root. -/
lemma insertT_fst_lt (bal : TreeF → TreeF) (cmp : Int → Int → Int)
    (d : Int) (l r : TreeF) (h : Nat) (x : Int) (hc : cmp d x < 0) :
    (insertT bal cmp (.node d l r h) x).1 =
      bal (.node d l (insertT bal cmp r x).1
        (max (hgt l) (hgt (insertT bal cmp r x).1) + 1)) := by
  rw [insertT_node_lt bal cmp d l r h x hc]

lemma insertT_fst_gt (bal : TreeF → TreeF) (cmp : Int → Int → Int)
    (d : Int) (l r : TreeF) (h : Nat) (x : Int) (hc : cmp d x > 0) :
    (insertT bal cmp (.node d l r h) x).1 =
      bal (.node d (insertT bal cmp l x).1 r
        (max (hgt (insertT bal cmp l x).1) (hgt r) + 1)) := by
  rw [insertT_node_gt bal cmp d l r h x hc]

lemma insertT_fst_eq0 (bal : TreeF → TreeF) (cmp : Int → Int → Int)
    (d : Int) (l r : TreeF) (h : Nat) (x : Int) (hc : cmp d x = 0) :
    (insertT bal cmp (.node d l r h) x).1 =
      bal (.node d l r (max (hgt l) (hgt r) + 1)) := by
  rw [insertT_node_eq0 bal cmp d l r h x hc]

/-- When the right subtree of a height-correct balanced node has grown
two levels above the left one — and, having just grown, is not perfectly
balanced — the balance hook restores a height-correct, balanced subtree
of height `hgt l + 2`. -/
lemma balance_right_grew (d : Int) (l R : TreeF)
    (hl : heightOkB l = true) (hbL : avlBalB l = true)
    (hRok : heightOkB R = true) (hbR : avlBalB R = true)
    (h2 : hgt R = hgt l + 2) (hdne : difference R ≠ 0) :
    heightOkB (balanceAvl (.node d l R (max (hgt l) (hgt R) + 1))) = true ∧
    avlBalB (balanceAvl (.node d l R (max (hgt l) (hgt R) + 1))) = true ∧
    hgt (balanceAvl (.node d l R (max (hgt l) (hgt R) + 1))) = hgt l + 2 := by
  rcases R with _ | ⟨rd, rl, rr, rh⟩
  · rw [hgt_nil] at h2
    exact absurd h2 (by omega)
  · rw [heightOkB] at hRok
    rw [avlBalB] at hbR
    simp only [Bool.and_eq_true, beq_iff_eq, decide_eq_true_eq] at hRok hbR
    obtain ⟨⟨hrh, hokrl⟩, hokrr⟩ := hRok
    obtain ⟨⟨hbsub, hbrl⟩, hbrr⟩ := hbR
    rw [hgt_node] at h2
    rw [difference_node] at hdne
    have hfac : difference (.node d l (.node rd rl rr rh)
        (max (hgt l) (hgt (TreeF.node rd rl rr rh)) + 1)) < -1 := by
      rw [difference_node, hgt_node]
      omega
    rw [balanceAvl_right_heavy _ hfac, rightOf_node]
    by_cases hdir : difference (TreeF.node rd rl rr rh) > 0
    · rw [if_pos hdir]
      rw [difference_node] at hdir
      have hrl1 : hgt rl = hgt l + 1 := by omega
      have hrr0 : hgt rr = hgt l := by omega
      rcases rl with _ | ⟨md, m1, m2, mh⟩
      · rw [hgt_nil] at hrl1
        exact absurd hrl1 (by omega)
      · rw [heightOkB] at hokrl
        rw [avlBalB] at hbrl
        simp only [Bool.and_eq_true, beq_iff_eq, decide_eq_true_eq] at hokrl hbrl
        obtain ⟨⟨hmh, hokm1⟩, hokm2⟩ := hokrl
        obtain ⟨⟨hbm, hbm1⟩, hbm2⟩ := hbrl
        rw [hgt_node] at hrl1
        exact rl_rotate_spec d rd md l m1 m2 rr mh rh _ hl hokm1 hokm2 hokrr
          hbL hbm1 hbm2 hbrr hrr0 (by omega) (by exact_mod_cast hbm)
    · rw [if_neg hdir]
      rw [difference_node] at hdir
      have e2 : hgt rr = hgt l + 1 := by omega
      have e3 : hgt rl = hgt l := by omega
      exact rr_rotate_spec d rd l rl rr rh _ hl hokrl hokrr hbL hbrl hbrr e2 e3

/-- Mirror image: the left subtree has grown two levels above the right
one. -/
lemma balance_left_grew (d : Int) (L r : TreeF)
    (hr : heightOkB r = true) (hbr : avlBalB r = true)
    (hLok : heightOkB L = true) (hbL : avlBalB L = true)
    (h2 : hgt L = hgt r + 2) (hdne : difference L ≠ 0) :
    heightOkB (balanceAvl (.node d L r (max (hgt L) (hgt r) + 1))) = true ∧
    avlBalB (balanceAvl (.node d L r (max (hgt L) (hgt r) + 1))) = true ∧
    hgt (balanceAvl (.node d L r (max (hgt L) (hgt r) + 1))) = hgt r + 2 := by
  rcases L with _ | ⟨ld, ll, lr, lh⟩
  · rw [hgt_nil] at h2
    exact absurd h2 (by omega)
  · rw [heightOkB] at hLok
    rw [avlBalB] at hbL
    simp only [Bool.and_eq_true, beq_iff_eq, decide_eq_true_eq] at hLok hbL
    obtain ⟨⟨hlh, hokll⟩, hoklr⟩ := hLok
    obtain ⟨⟨hbsub, hbll⟩, hblr⟩ := hbL
    rw [hgt_node] at h2
    rw [difference_node] at hdne
    have hfac : difference (.node d (.node ld ll lr lh) r
        (max (hgt (TreeF.node ld ll lr lh)) (hgt r) + 1)) > 1 := by
      rw [difference_node, hgt_node]
      omega
    rw [balanceAvl_left_heavy _ hfac, leftOf_node]
    by_cases hdir : difference (TreeF.node ld ll lr lh) > 0
    · rw [if_pos hdir]
      rw [difference_node] at hdir
      have e2 : hgt ll = hgt r + 1 := by omega
      have e3 : hgt lr = hgt r := by omega
      exact ll_rotate_spec d ld ll lr r lh _ hokll hoklr hr hbll hblr hbr e2 e3
    · rw [if_neg hdir]
      rw [difference_node] at hdir
      have hlr1 : hgt lr = hgt r + 1 := by omega
      have hll0 : hgt ll = hgt r := by omega
      rcases lr with _ | ⟨md, m1, m2, mh⟩
      · rw [hgt_nil] at hlr1
        exact absurd hlr1 (by omega)
      · rw [heightOkB] at hoklr
        rw [avlBalB] at hblr
        simp only [Bool.and_eq_true, beq_iff_eq, decide_eq_true_eq] at hoklr hblr
        obtain ⟨⟨hmh, hokm1⟩, hokm2⟩ := hoklr
        obtain ⟨⟨hbm, hbm1⟩, hbm2⟩ := hblr
        rw [hgt_node] at hlr1
        exact lr_rotate_spec d ld md ll m1 m2 r mh lh _ hokll hokm1 hokm2 hr
          hbll hbm1 hbm2 hbr hll0 (by omega) (by exact_mod_cast hbm)

/-- Main induction for C2: on a height-correct, balanced tree, the
recursive AVL insert yields a height-correct, balanced tree whose height
is the old height or one more; and when it did grow (beyond a fresh
leaf), the result is not perfectly balanced. -/
lemma insertT_avl_wf (cmp : Int → Int → Int) (x : Int) :
    ∀ t : TreeF, heightOkB t = true → avlBalB t = true →
      heightOkB (insertT balanceAvl cmp t x).1 = true ∧
      avlBalB (insertT balanceAvl cmp t x).1 = true ∧
      hgt t ≤ hgt (insertT balanceAvl cmp t x).1 ∧
      hgt (insertT balanceAvl cmp t x).1 ≤ hgt t + 1 ∧
      (hgt (insertT balanceAvl cmp t x).1 = hgt t + 1 →
        difference (insertT balanceAvl cmp t x).1 ≠ 0 ∨
        hgt (insertT balanceAvl cmp t x).1 = 1) := by
  intro t
  induction t with
  | nil =>
    intro _ _
    refine ⟨rfl, rfl, by simp [insertT], by simp [insertT], ?_⟩
    intro _
    right
    simp [insertT]
  | node d l r h ihl ihr =>
    intro hh hb
    rw [heightOkB] at hh
    rw [avlBalB] at hb
    simp only [Bool.and_eq_true, beq_iff_eq, decide_eq_true_eq] at hh hb
    obtain ⟨⟨hhh, hhl⟩, hhr⟩ := hh
    obtain ⟨⟨hbb, hbl⟩, hbr⟩ := hb
    rcases lt_trichotomy (cmp d x) 0 with hc | hc | hc
    · -- descent goes right
      rw [insertT_fst_lt balanceAvl cmp d l r h x hc]
      obtain ⟨ih1, ih2, ih3, ih4, ih5⟩ := ihr hhr hbr
      by_cases hfac : hgt (insertT balanceAvl cmp r x).1 ≥ hgt l + 2
      · -- factor fell below -1: the hook rotates
        have h2 : hgt (insertT balanceAvl cmp r x).1 = hgt l + 2 := by omega
        have hgrow : hgt (insertT balanceAvl cmp r x).1 = hgt r + 1 := by omega
        have hdne : difference (insertT balanceAvl cmp r x).1 ≠ 0 := by
          rcases ih5 hgrow with hd | h1
          · exact hd
          · exact absurd h1 (by omega)
        obtain ⟨g1, g2, g3⟩ := balance_right_grew d l (insertT balanceAvl cmp r x).1
          hhl hbl ih1 ih2 h2 hdne
        refine ⟨g1, g2, ?_, ?_, ?_⟩
        · rw [hgt_node]; omega
        · rw [hgt_node]; omega
        · rw [hgt_node]
          intro habs
          exfalso
          omega
      · -- factor stays in range: the hook is the identity
        have hid := balanceAvl_id (.node d l (insertT balanceAvl cmp r x).1
            (max (hgt l) (hgt (insertT balanceAvl cmp r x).1) + 1))
          (by rw [difference_node]; omega) (by rw [difference_node]; omega)
        rw [hid]
        refine ⟨?_, ?_, ?_, ?_, ?_⟩
        · rw [heightOkB]
          simp only [Bool.and_eq_true, beq_iff_eq, hgt_node]
          exact ⟨⟨trivial, hhl⟩, ih1⟩
        · rw [avlBalB]
          simp only [Bool.and_eq_true, decide_eq_true_eq]
          exact ⟨⟨by omega, hbl⟩, ih2⟩
        · rw [hgt_node, hgt_node]; omega
        · rw [hgt_node, hgt_node]; omega
        · rw [hgt_node, hgt_node]
          intro hgrow
          left
          rw [difference_node]
          omega
    · -- equal: structure unchanged, height recomputed, hook consulted
      rw [insertT_fst_eq0 balanceAvl cmp d l r h x hc]
      have hid := balanceAvl_id (.node d l r (max (hgt l) (hgt r) + 1))
        (by rw [difference_node]; omega) (by rw [difference_node]; omega)
      rw [hid]
      refine ⟨?_, ?_, ?_, ?_, ?_⟩
      · rw [heightOkB]
        simp only [Bool.and_eq_true, beq_iff_eq, hgt_node]
        exact ⟨⟨trivial, hhl⟩, hhr⟩
      · rw [avlBalB]
        simp only [Bool.and_eq_true, decide_eq_true_eq]
        exact ⟨⟨by omega, hbl⟩, hbr⟩
      · rw [hgt_node, hgt_node]; omega
      · rw [hgt_node, hgt_node]; omega
      · rw [hgt_node, hgt_node]
        intro habs
        exfalso
        omega
    · -- descent goes left
      rw [insertT_fst_gt balanceAvl cmp d l r h x hc]
      obtain ⟨ih1, ih2, ih3, ih4, ih5⟩ := ihl hhl hbl
      by_cases hfac : hgt (insertT balanceAvl cmp l x).1 ≥ hgt r + 2
      · have h2 : hgt (insertT balanceAvl cmp l x).1 = hgt r + 2 := by omega
        have hgrow : hgt (insertT balanceAvl cmp l x).1 = hgt l + 1 := by omega
        have hdne : difference (insertT balanceAvl cmp l x).1 ≠ 0 := by
          rcases ih5 hgrow with hd | h1
          · exact hd
          · exact absurd h1 (by omega)
        obtain ⟨g1, g2, g3⟩ := balance_left_grew d (insertT balanceAvl cmp l x).1 r
          hhr hbr ih1 ih2 h2 hdne
        refine ⟨g1, g2, ?_, ?_, ?_⟩
        · rw [hgt_node]; omega
        · rw [hgt_node]; omega
        · rw [hgt_node]
          intro habs
          exfalso
          omega
      · have hid := balanceAvl_id (.node d (insertT balanceAvl cmp l x).1 r
            (max (hgt (insertT balanceAvl cmp l x).1) (hgt r) + 1))
          (by rw [difference_node]; omega) (by rw [difference_node]; omega)
        rw [hid]
        refine ⟨?_, ?_, ?_, ?_, ?_⟩
        · rw [heightOkB]
          simp only [Bool.and_eq_true, beq_iff_eq, hgt_node]
          exact ⟨⟨trivial, ih1⟩, hhr⟩
        · rw [avlBalB]
          simp only [Bool.and_eq_true, decide_eq_true_eq]
          exact ⟨⟨by omega, ih2⟩, hbr⟩
        · rw [hgt_node, hgt_node]; omega
        · rw [hgt_node, hgt_node]; omega
        · rw [hgt_node, hgt_node]
          intro hgrow
          left
          rw [difference_node]
          omega

/-- Fold form of the invariant: every tree reached from a well-formed
start by a sequence of AVL inserts is height-correct and balanced. -/
lemma buildAvl_foldl_wf (cmp : Int → Int → Int) (xs : List Int) :
    ∀ t : TreeF, heightOkB t = true → avlBalB t = true →
      heightOkB (xs.foldl (fun t x => (insertT balanceAvl cmp t x).1) t) = true ∧
      avlBalB (xs.foldl (fun t x => (insertT balanceAvl cmp t x).1) t) = true := by
  induction xs with
  | nil => intro t hh hb; exact ⟨hh, hb⟩
  | cons y ys ih =>
    intro t hh hb
    rw [List.foldl_cons]
    obtain ⟨g1, g2, _⟩ := insertT_avl_wf cmp y t hh hb
    exact ih _ g1 g2

/-- C2.  After any insertion-only workload into an empty AVL tree — any
value sequence `xs`, any comparator — every node of the resulting tree
has a balance factor in `[-1, 1]`.  Stated for the cached heights
(`avlBalB`), together with correctness of every cache (`heightOkB`) and
hence also for the true recomputed subtree heights (`avlBalR`).  Since
`xs` ranges over all workloads, the invariant holds after every
intermediate insert as well. -/
theorem c2_insert_only_avl_invariant (cmp : Int → Int → Int) (xs : List Int) :
    avlBalB (buildAvlF cmp xs) = true ∧
    heightOkB (buildAvlF cmp xs) = true ∧
    avlBalR (buildAvlF cmp xs) = true := by
  obtain ⟨hh, hb⟩ := buildAvl_foldl_wf cmp xs .nil rfl rfl
  exact ⟨hb, hh, avlBalR_of_avlBalB _ hh hb⟩

end Kwik
